import Mathlib

/-!
# Verification of billjs/query-string (`src/index.ts`)

A shallow embedding of the two exported functions `parse` and `stringify`
of `src/index.ts`, together with proofs about them.

Modelling conventions:

* JavaScript strings are modelled as `List Char` (sequences of Unicode scalar
  values).  Lone UTF-16 surrogates are not representable in this model.
* A JavaScript runtime value is modelled by the closed variant `JSVal`
  (`undefined`, `null`, booleans, numbers, strings, arrays).  Numbers are
  modelled as integers; float formatting is out of scope.
* A query object (`Record<string, any>`) is modelled as an insertion-ordered
  association list `QueryObject` with pairwise-distinct keys; its list order
  is the object's key iteration order.
* `encodeURIComponent` / `decodeURIComponent` are the ECMAScript builtins the
  source calls; they are modelled here from their ECMA-262 definitions
  (percent-encoding of UTF-8 bytes; the unescaped set is alphanumerics plus
  `- _ . ! ~ * ' ( )`; decoding rejects malformed percent sequences and
  invalid UTF-8, modelled by an `Option` result where `none` is a thrown
  `URIError`).
* `parse` can propagate that `URIError`; it therefore returns
  `Except Unit QueryObject`, with `.error ()` standing for the thrown error.
-/

namespace QueryString

/-- A JavaScript string, as a list of Unicode scalar values. -/
abbrev JSStr := List Char

/-- Convert a Lean string literal to the `JSStr` model. -/
def toL (s : String) : JSStr := s.data

/-- A JavaScript runtime value (closed variant; numbers restricted to
integers, objects other than arrays not represented). -/
inductive JSVal where
  | und : JSVal
  | null : JSVal
  | bool (b : Bool) : JSVal
  | num (n : Int) : JSVal
  | str (s : JSStr) : JSVal
  | arr (elems : List JSVal) : JSVal

/-- The query mapping built by `parse` and consumed by `stringify`:
an insertion-ordered association list from string keys to values. -/
abbrev QueryObject := List (JSStr × JSVal)

/-! ## JavaScript string primitives used by the source -/

/-- Decimal digit character (`n < 10`). -/
def digitChar : Nat → Char
  | 0 => '0' | 1 => '1' | 2 => '2' | 3 => '3' | 4 => '4'
  | 5 => '5' | 6 => '6' | 7 => '7' | 8 => '8' | _ => '9'

/-- Decimal digits of `n`, most significant first (`fuel`-structured so that
it reduces definitionally; `natToText` supplies sufficient fuel). -/
def natDigits : Nat → Nat → List Char
  | 0, _ => []
  | f + 1, n => if n < 10 then [digitChar n] else natDigits f (n / 10) ++ [digitChar (n % 10)]

/-- Decimal text of a natural number. -/
def natToText (n : Nat) : List Char := natDigits (n + 1) n

/-- Decimal text of an integer (JavaScript number-to-string for
integer-valued numbers). -/
def intToText : Int → List Char
  | .ofNat n => natToText n
  | .negSucc m => '-' :: natToText (m + 1)

/-- `Array.prototype.join`: concatenate the pieces with `sep` between
consecutive pieces, nothing leading or trailing. -/
def joinWith (sep : JSStr) : List JSStr → JSStr
  | [] => []
  | [x] => x
  | x :: xs => x ++ sep ++ joinWith sep xs

mutual

/-- The JavaScript `ToString` coercion applied by `encodeURIComponent` to a
non-string argument. -/
def toJSString : JSVal → JSStr
  | .str s => s
  | .num n => intToText n
  | .bool b => if b then toL "true" else toL "false"
  | .null => toL "null"
  | .und => toL "undefined"
  | .arr xs => arrayText xs

/-- `Array.prototype.toString`: elements comma-joined, with `null` and
`undefined` elements contributing empty text. -/
def arrayText : List JSVal → JSStr
  | [] => []
  | [.null] => []
  | [.und] => []
  | [x] => toJSString x
  | .null :: xs => ',' :: arrayText xs
  | .und :: xs => ',' :: arrayText xs
  | x :: xs => toJSString x ++ ',' :: arrayText xs

end

/-- `String.prototype.split` with a non-empty string separator: scan left to
right for non-overlapping occurrences of `sep`.  `acc` is the current piece,
reversed; the fuel is structural and `jsSplit` supplies `s.length`, which is
sufficient because every step consumes at least one character. -/
def splitGo (sep : JSStr) : Nat → JSStr → JSStr → List JSStr
  | _, [], acc => [acc.reverse]
  | 0, s, acc => [acc.reverse ++ s]
  | fuel + 1, c :: rest, acc =>
      if sep.isPrefixOf (c :: rest) then
        acc.reverse :: splitGo sep fuel (List.drop (sep.length - 1) rest) []
      else
        splitGo sep fuel rest (c :: acc)

/-- `String.prototype.split(sep)` for a string separator.  An empty separator
splits into single characters (that case is unreachable from `parse`, which
defaults empty separators away). -/
def jsSplit (s sep : JSStr) : List JSStr :=
  if sep = [] then s.map (fun c => [c]) else splitGo sep s.length s []

/-- ECMAScript `LineTerminator` characters, which `.` in a regular expression
without the `s` flag does not match. -/
def isLineTerminator (c : Char) : Bool :=
  c = '\n' || c = '\r' || c.toNat = 0x2028 || c.toNat = 0x2029

/-- Matching of the regular expression `/.*?\?/` at a fixed start position:
the lazy `.*?` stops at the first `'?'`, and fails if a line terminator
intervenes.  Returns the remainder after the match. -/
def matchToQ : JSStr → Option JSStr
  | [] => none
  | c :: rest =>
      if c = '?' then some rest
      else if isLineTerminator c then none
      else matchToQ rest

/-- `str.replace(/.*?\?/, '')` (line 67 of the source): delete the leftmost
match of `/.*?\?/`, keeping the text before the match and after it. -/
def stripUrlPart : JSStr → JSStr
  | [] => []
  | c :: rest =>
      match matchToQ (c :: rest) with
      | some r => r
      | none => c :: stripUrlPart rest

/-! ## `encodeURIComponent` / `decodeURIComponent` (ECMA-262) -/

/-- The `uriUnescaped` set of `encodeURIComponent`: ASCII alphanumerics and
`- _ . ! ~ * ' ( )` (ECMA-262 table). -/
def isUriUnescaped (c : Char) : Bool :=
  let n := c.toNat
  (65 ≤ n && n ≤ 90) || (97 ≤ n && n ≤ 122) || (48 ≤ n && n ≤ 57) ||
    n = 45 || n = 95 || n = 46 || n = 33 || n = 126 || n = 42 || n = 39 || n = 40 || n = 41

/-- The UTF-8 bytes of a Unicode scalar value. -/
def utf8Bytes (c : Char) : List Nat :=
  let n := c.toNat
  if n < 0x80 then [n]
  else if n < 0x800 then [0xC0 + n / 64, 0x80 + n % 64]
  else if n < 0x10000 then [0xE0 + n / 4096, 0x80 + n / 64 % 64, 0x80 + n % 64]
  else [0xF0 + n / 262144, 0x80 + n / 4096 % 64, 0x80 + n / 64 % 64, 0x80 + n % 64]

/-- Uppercase hexadecimal digit (`n < 16`). -/
def hexDigit : Nat → Char
  | 0 => '0' | 1 => '1' | 2 => '2' | 3 => '3' | 4 => '4' | 5 => '5' | 6 => '6' | 7 => '7'
  | 8 => '8' | 9 => '9' | 10 => 'A' | 11 => 'B' | 12 => 'C' | 13 => 'D' | 14 => 'E' | _ => 'F'

/-- `%XX` escape of one byte. -/
def byteEscape (b : Nat) : List Char := ['%', hexDigit (b / 16), hexDigit (b % 16)]

/-- The encoding of a single character by `encodeURIComponent`. -/
def encodeChar (c : Char) : List Char :=
  if isUriUnescaped c then [c] else ((utf8Bytes c).map byteEscape).flatten

/-- ECMAScript `encodeURIComponent`. -/
def encodeURIComponent (s : JSStr) : JSStr := (s.map encodeChar).flatten

/-- Value of a hexadecimal digit character, if it is one. -/
def hexVal (c : Char) : Option Nat :=
  let n := c.toNat
  if 48 ≤ n ∧ n ≤ 57 then some (n - 48)
  else if 65 ≤ n ∧ n ≤ 70 then some (n - 55)
  else if 97 ≤ n ∧ n ≤ 102 then some (n - 87)
  else none

/-- The byte named by two hexadecimal digit characters, if both are ones. -/
def escByte (h1 h2 : Char) : Option Nat :=
  match hexVal h1, hexVal h2 with
  | some u1, some u2 => some (16 * u1 + u2)
  | _, _ => none

/-- Read one escaped byte `%HH` (three characters) from the head of the
string; return the byte and the remainder, or `none` if the escape is
malformed or truncated. -/
def readEscByte : JSStr → Option (Nat × JSStr)
  | p :: h1 :: h2 :: t => if p = '%' then (escByte h1 h2).map (fun b => (b, t)) else none
  | _ => none

/-- Read `k` escaped UTF-8 continuation bytes (each `%HH` with byte in
`0x80`–`0xBF`); return their six-bit payloads and the remainder. -/
def readCont : Nat → JSStr → Option (List Nat × JSStr)
  | 0, s => some ([], s)
  | k + 1, s =>
      match readEscByte s with
      | some (b, t) =>
          if 0x80 ≤ b ∧ b < 0xC0 then
            (readCont k t).map (fun br => ((b - 0x80) :: br.1, br.2))
          else none
      | none => none

/-- How many continuation bytes a UTF-8 leading byte with the high bit set
announces; `none` for a byte that can never lead a sequence. -/
def contCount (b : Nat) : Option Nat :=
  if b < 0xC0 then none
  else if b < 0xE0 then some 1
  else if b < 0xF0 then some 2
  else if b < 0xF8 then some 3
  else none

/-- Combine a leading byte and the continuation payloads into a code point,
enforcing strict UTF-8: no overlong forms, no surrogates, maximum
`0x10FFFF`. -/
def combineUtf8 (b : Nat) : List Nat → Option Nat
  | [x1] =>
      if (b - 0xC0) * 64 + x1 < 0x80 then none
      else some ((b - 0xC0) * 64 + x1)
  | [x1, x2] =>
      if (b - 0xE0) * 4096 + x1 * 64 + x2 < 0x800 then none
      else if 0xD800 ≤ (b - 0xE0) * 4096 + x1 * 64 + x2 ∧
          (b - 0xE0) * 4096 + x1 * 64 + x2 < 0xE000 then none
      else some ((b - 0xE0) * 4096 + x1 * 64 + x2)
  | [x1, x2, x3] =>
      if (b - 0xF0) * 262144 + x1 * 4096 + x2 * 64 + x3 < 0x10000 then none
      else if 0x10FFFF < (b - 0xF0) * 262144 + x1 * 4096 + x2 * 64 + x3 then none
      else some ((b - 0xF0) * 262144 + x1 * 4096 + x2 * 64 + x3)
  | _ => none

/-- ECMAScript `decodeURIComponent` (the `Decode` abstract operation with an
empty reserved set): percent sequences are decoded as strict UTF-8 —
malformed escapes, bad continuation bytes, overlong forms, surrogates and
out-of-range code points all throw (`none`); other characters pass through
unchanged.  The fuel is structural so the function reduces definitionally;
`decodeURIComponent` supplies `s.length`, which is sufficient because every
step consumes at least one character. -/
def decodeF : Nat → JSStr → Option JSStr
  | 0, s => if s.isEmpty then some [] else none
  | _ + 1, [] => some []
  | fuel + 1, c :: rest =>
      if c ≠ '%' then (decodeF fuel rest).map (c :: ·)
      else
        match readEscByte (c :: rest) with
        | none => none
        | some (b, t) =>
          if b < 0x80 then (decodeF fuel t).map (Char.ofNat b :: ·)
          else
            match contCount b with
            | none => none
            | some k =>
              match readCont k t with
              | none => none
              | some (xs, r) =>
                match combineUtf8 b xs with
                | none => none
                | some v => (decodeF fuel r).map (Char.ofNat v :: ·)

/-- ECMAScript `decodeURIComponent`; `none` models a thrown `URIError`. -/
def decodeURIComponent (s : JSStr) : Option JSStr := decodeF s.length s

/-! ## `parse` (lines 50–96 of `src/index.ts`) -/

/-- Resolve a separator argument: `undefined`/`null` (`none`) and the empty
string are falsy, so they fall back to the default (lines 59–60 / 138–139). -/
def defaultSep (s : Option JSStr) (d : Char) : JSStr :=
  match s with
  | some l => if l = [] then [d] else l
  | none => [d]

/-- Resolve the `fn` argument of `parse`: when absent it defaults to the
identity on values, wrapped as a string (lines 62–64). -/
def defaultParseFn : Option (JSStr → JSStr → JSVal) → (JSStr → JSStr → JSVal)
  | some f => f
  | none => fun _ value => .str value

/-- `obj[key]` as an `Option` (JavaScript property access; `none` when the
key is absent). -/
def objGet : QueryObject → JSStr → Option JSVal
  | [], _ => none
  | (k, v) :: rest, key => if k = key then some v else objGet rest key

/-- `obj[key] = value`: update in place if the key exists (keeping its
position), otherwise append. -/
def objSet : QueryObject → JSStr → JSVal → QueryObject
  | [], key, value => [(key, value)]
  | (k, v) :: rest, key, value =>
      if k = key then (k, value) :: rest else (k, v) :: objSet rest key value

/-- `Array.isArray` / the `=== void 0` tag checks of the source. -/
def isUndefined : JSVal → Bool
  | .und => true
  | _ => false

/-- Lines 86–93 of the source: insert one decoded pair.  `obj[key]` compares
`!== void 0`; a defined non-array becomes a two-element array, a defined
array is pushed onto, everything else is plain assignment. -/
def addPair (obj : QueryObject) (key : JSStr) (value : JSVal) : QueryObject :=
  let cur := (objGet obj key).getD .und
  if isUndefined cur then objSet obj key value
  else
    match cur with
    | .arr xs => objSet obj key (.arr (xs ++ [value]))
    | old => objSet obj key (.arr [old, value])

/-- The `for (const group of groups)` loop of `parse` (lines 71–94): split
each group on `eq`, silently skip groups that do not split into exactly two
parts, decode key then value (a decode failure throws out of the loop),
apply `fn`, and insert. -/
def parseGroups (eq : JSStr) (fn : JSStr → JSStr → JSVal) :
    List JSStr → QueryObject → Except Unit QueryObject
  | [], obj => .ok obj
  | g :: gs, obj =>
      match jsSplit g eq with
      | [k0, v0] =>
        match decodeURIComponent k0 with
        | none => .error ()
        | some key =>
          match decodeURIComponent v0 with
          | none => .error ()
          | some dv => parseGroups eq fn gs (addPair obj key (fn key dv))
      | _ => parseGroups eq fn gs obj

/-- The body of `parse` on a non-empty string source: strip the URL prefix,
split into groups, process the groups. -/
def parseString (s : JSStr) (sep eq : JSStr) (fn : JSStr → JSStr → JSVal) :
    Except Unit QueryObject :=
  parseGroups eq fn (jsSplit (stripUrlPart s) sep) []

/-- `parse(str, sep?, eq?, fn?)` (lines 50–96): a falsy or non-string `str`
yields the empty object; separators default to `'&'` / `'='`; `fn` defaults
to the identity. -/
def parse (str : JSVal) (sep eq : Option JSStr) (fn : Option (JSStr → JSStr → JSVal)) :
    Except Unit QueryObject :=
  match str with
  | .str s =>
      if s = [] then .ok []
      else parseString s (defaultSep sep '&') (defaultSep eq '=') (defaultParseFn fn)
  | _ => .ok []

/-! ## `stringify` (lines 130–171 of `src/index.ts`) -/

/-- Resolve the `fn` argument of `stringify`: identity default
(lines 141–143). -/
def defaultStringifyFn : Option (JSStr → JSVal → JSVal) → (JSStr → JSVal → JSVal)
  | some f => f
  | none => fun _ value => value

/-- The `for (const key of keys)` loop of `stringify` (lines 148–168),
accumulating the `qs` array: `undefined` values are skipped, arrays are
expanded into one pair per element, others produce a single pair; every
emitted value goes through `fn`, `ToString` and `encodeURIComponent`. -/
def stringifyLoop (eq : JSStr) (fn : JSStr → JSVal → JSVal) :
    QueryObject → List JSStr → List JSStr
  | [], qs => qs
  | (key, value) :: rest, qs =>
      let ekey := encodeURIComponent key
      match value with
      | .und => stringifyLoop eq fn rest qs
      | .arr xs =>
          stringifyLoop eq fn rest
            (qs ++ xs.map (fun val => ekey ++ eq ++ encodeURIComponent (toJSString (fn key val))))
      | v => stringifyLoop eq fn rest (qs ++ [ekey ++ eq ++ encodeURIComponent (toJSString (fn key v))])

/-- `stringify(obj, sep?, eq?, fn?)` (lines 130–171).  `none` models every
input rejected by `obj == null || !isObject(obj)` (line 136): `null`,
`undefined` and non-object primitives, which yield the empty string. -/
def stringify (obj : Option QueryObject) (sep eq : Option JSStr)
    (fn : Option (JSStr → JSVal → JSVal)) : JSStr :=
  match obj with
  | none => []
  | some o =>
      joinWith (defaultSep sep '&')
        (stringifyLoop (defaultSep eq '=') (defaultStringifyFn fn) o [])

/-! ## Specification-level definitions used by the claims -/

/-- Drop everything up to and including the first `'?'`. -/
def dropThroughQ : JSStr → JSStr
  | [] => []
  | c :: rest => if c = '?' then rest else dropThroughQ rest

/-- The strip step as claim C6 words it: remove the longest leading
substring of the source ending at the first `'?'` character, if one exists;
a string containing no `'?'` is used as-is. -/
def specStrip (s : JSStr) : JSStr :=
  if '?' ∈ s then dropThroughQ s else s

/-- RFC 3986 unreserved characters, the set a standard URI-component
encoder leaves bare: ASCII alphanumerics and `- . _ ~`. -/
def isRfc3986Unreserved (c : Char) : Bool :=
  let n := c.toNat
  (65 ≤ n && n ≤ 90) || (97 ≤ n && n ≤ 122) || (48 ≤ n && n ≤ 57) ||
    n = 45 || n = 46 || n = 95 || n = 126

/-- The pairs one key/value entry contributes to the output, as §4.2 of the
spec words it: none for `undefined`, one per element for a sequence, one for
any other value. -/
def pairsOfEntry (eq : JSStr) (fn : JSStr → JSVal → JSVal) (key : JSStr) : JSVal → List JSStr
  | .und => []
  | .arr xs =>
      xs.map (fun v => encodeURIComponent key ++ eq ++ encodeURIComponent (toJSString (fn key v)))
  | v => [encodeURIComponent key ++ eq ++ encodeURIComponent (toJSString (fn key v))]

/-- The (key, value) argument list `stringify` passes to its transform
callback: one call per array element, one per defined non-array value, no
call for an `undefined` value. -/
def fnArgs : QueryObject → List (JSStr × JSVal)
  | [] => []
  | (_, .und) :: rest => fnArgs rest
  | (key, .arr xs) :: rest => xs.map (fun x => (key, x)) ++ fnArgs rest
  | (key, v) :: rest => (key, v) :: fnArgs rest

/-- Scalar occurrences discovered by `parse`, independently of the
callback: the decoded (key, value) pairs of the retained groups in group
order, or `none` when the decode primitive throws on one of them. -/
def decodedPairs (eq : JSStr) : List JSStr → Option (List (JSStr × JSStr))
  | [] => some []
  | g :: gs =>
      match jsSplit g eq with
      | [k0, v0] =>
        match decodeURIComponent k0, decodeURIComponent v0 with
        | some k, some v => (decodedPairs eq gs).map (fun ps => (k, v) :: ps)
        | _, _ => none
      | _ => decodedPairs eq gs

/-- Separator-freeness of a string, as claim C1 requires. -/
def noSepB (s : JSStr) : Bool := !s.contains '&' && !s.contains '='

/-- A sequence element as claim C1 allows: a string free of separator
characters. -/
def isStrNoSepB : JSVal → Bool
  | .str s => noSepB s
  | _ => false

/-- A value as claim C1 (as stated) allows: a scalar string, or a sequence
of strings of any length. -/
def goodValClaimB : JSVal → Bool
  | .str s => noSepB s
  | .arr xs => xs.all isStrNoSepB
  | _ => false

/-- A value as the amended claim allows: a scalar string, or a sequence of
at least two strings. -/
def goodValAmendedB : JSVal → Bool
  | .str s => noSepB s
  | .arr xs => decide (2 ≤ xs.length) && xs.all isStrNoSepB
  | _ => false

/-- A mapping within claim C1's hypotheses: pairwise-distinct keys and
separator-free keys, with every value accepted by `valOK`. -/
def goodObjB (valOK : JSVal → Bool) (m : QueryObject) : Bool :=
  decide (m.map Prod.fst).Nodup && m.all (fun kv => noSepB kv.1 && valOK kv.2)

/-! ## Association-list lemmas -/

theorem objSet_of_objGet_none {obj : QueryObject} {key : JSStr}
    (h : objGet obj key = none) (v : JSVal) :
    objSet obj key v = obj ++ [(key, v)] := by
  induction obj with
  | nil => rfl
  | cons kv rest ih =>
    obtain ⟨k, w⟩ := kv
    by_cases hk : k = key
    · simp [objGet, hk] at h
    · simp only [objGet, if_neg hk] at h
      simp [objSet, hk, ih h]

/-! ## Claim theorems -/

/-- Claim C4: `stringify` never raises — it is a total function into strings
in this model (JavaScript strings being modelled as sequences of Unicode
scalar values) — and every source value rejected by the
`obj == null || !isObject(obj)` guard (`null`, absent, or any non-object-like
value, all modelled by `none`) yields the empty string, whatever the
separator and callback arguments are. -/
theorem stringify_invalid_source_yields_empty :
    ∀ (sep eq : Option JSStr) (fn : Option (JSStr → JSVal → JSVal)),
      stringify none sep eq fn = [] := by
  intro sep eq fn
  rfl

/-- Claim C10: a key whose value is `null` is not skipped by `stringify`
(only `undefined` is): the emission loop produces for it a pair whose value
text is the literal `null`, under the default (identity) transform.  In
particular `stringify({a: null})` is `"a=null"`. -/
theorem stringify_null_value_emitted :
    (∀ (key : JSStr) (rest : QueryObject) (eq : JSStr) (qs : List JSStr),
        stringifyLoop eq (defaultStringifyFn none) ((key, .null) :: rest) qs =
          stringifyLoop eq (defaultStringifyFn none) rest
            (qs ++ [encodeURIComponent key ++ eq ++ toL "null"])) ∧
    stringify (some [(toL "a", .null)]) none none none = toL "a=null" := by
  constructor
  · intro key rest eq qs
    rfl
  · rfl

/-- Claim C2: the insertion step of `parse` — a key with no defined entry
yet stores the (transformed) value as a scalar; a key holding a defined
non-array value is converted to the two-element array `[old, new]`; a key
holding an array has the new value pushed onto it.  ("Present" is the
source's `obj[key] !== void 0` check, so a stored `undefined` counts as
absent.)  Consequently `parse("a=1&a=2&a=3")` is `{a: ["1","2","3"]}`, in
encounter order. -/
theorem parse_repeated_key_insertion :
    (∀ (obj : QueryObject) (key : JSStr) (value : JSVal),
        (objGet obj key = none →
          addPair obj key value = obj ++ [(key, value)]) ∧
        (∀ old, objGet obj key = some old → old ≠ .und → (∀ xs, old ≠ .arr xs) →
          addPair obj key value = objSet obj key (.arr [old, value])) ∧
        (∀ xs, objGet obj key = some (.arr xs) →
          addPair obj key value = objSet obj key (.arr (xs ++ [value])))) ∧
    parse (.str (toL "a=1&a=2&a=3")) none none none =
      .ok [(toL "a", .arr [.str (toL "1"), .str (toL "2"), .str (toL "3")])] := by
  refine ⟨fun obj key value => ⟨?_, ?_, ?_⟩, ?_⟩
  · intro h
    unfold addPair
    rw [h]
    simp only [Option.getD_none]
    simp [isUndefined, objSet_of_objGet_none h]
  · intro old h hund harr
    unfold addPair
    rw [h]
    simp only [Option.getD_some]
    cases old with
    | und => exact absurd rfl hund
    | arr xs => exact absurd rfl (harr xs)
    | null => simp [isUndefined]
    | bool b => simp [isUndefined]
    | num n => simp [isUndefined]
    | str s => simp [isUndefined]
  · intro xs h
    unfold addPair
    rw [h]
    simp [isUndefined]
  · rfl

/-- Witness for C2: the three insertion shapes at concrete inputs. -/
theorem parse_repeated_key_insertion_witness :
    addPair [] (toL "a") (.str (toL "1")) = [(toL "a", .str (toL "1"))] ∧
    addPair [(toL "a", .str (toL "1"))] (toL "a") (.str (toL "2")) =
      [(toL "a", .arr [.str (toL "1"), .str (toL "2")])] ∧
    addPair [(toL "a", .arr [.str (toL "1"), .str (toL "2")])] (toL "a") (.str (toL "3")) =
      [(toL "a", .arr [.str (toL "1"), .str (toL "2"), .str (toL "3")])] := by
  refine ⟨?_, ?_, ?_⟩
  · exact (parse_repeated_key_insertion.1 [] (toL "a") (.str (toL "1"))).1 rfl
  · exact (parse_repeated_key_insertion.1 [(toL "a", .str (toL "1"))] (toL "a")
      (.str (toL "2"))).2.1 (.str (toL "1")) rfl (by intro h; cases h) (by intro xs h; cases h)
  · exact (parse_repeated_key_insertion.1 [(toL "a", .arr [.str (toL "1"), .str (toL "2")])]
      (toL "a") (.str (toL "3"))).2.2 [.str (toL "1"), .str (toL "2")] rfl

/-- Claim C3: a group contributes to the result exactly when splitting it on
the key-value separator yields two parts: a group whose split has length
other than two is skipped silently, and a group splitting as `[k0, v0]` is
decoded and inserted (or propagates a decode error).  In particular
`parse("a=1&b&c=2")` is `{a:"1", c:"2"}` with the bare `b` discarded. -/
theorem parse_group_kept_iff_two_parts :
    (∀ (g : JSStr) (gs : List JSStr) (eq : JSStr) (fn : JSStr → JSStr → JSVal)
        (obj : QueryObject),
        ((jsSplit g eq).length ≠ 2 →
          parseGroups eq fn (g :: gs) obj = parseGroups eq fn gs obj) ∧
        (∀ k0 v0, jsSplit g eq = [k0, v0] →
          ((decodeURIComponent k0 = none ∨ decodeURIComponent v0 = none) →
            parseGroups eq fn (g :: gs) obj = .error ()) ∧
          (∀ k v, decodeURIComponent k0 = some k → decodeURIComponent v0 = some v →
            parseGroups eq fn (g :: gs) obj =
              parseGroups eq fn gs (addPair obj k (fn k v))))) ∧
    parse (.str (toL "a=1&b&c=2")) none none none =
      .ok [(toL "a", .str (toL "1")), (toL "c", .str (toL "2"))] := by
  refine ⟨fun g gs eq fn obj => ⟨?_, ?_⟩, ?_⟩
  · intro hlen
    match hsplit : jsSplit g eq with
    | [] => simp [parseGroups, hsplit]
    | [a] => simp [parseGroups, hsplit]
    | [a, b] => exact absurd (by rw [hsplit]; rfl) hlen
    | a :: b :: c :: t => simp [parseGroups, hsplit]
  · intro k0 v0 hsplit
    constructor
    · rintro (hk | hv)
      · simp [parseGroups, hsplit, hk]
      · cases hdk : decodeURIComponent k0 with
        | none => simp [parseGroups, hsplit, hdk]
        | some k => simp [parseGroups, hsplit, hdk, hv]
    · intro k v hk hv
      simp [parseGroups, hsplit, hk, hv]
  · rfl

/-- Witness for C3: a bare group is skipped; a two-part group is inserted. -/
theorem parse_group_kept_iff_two_parts_witness :
    parseGroups (toL "=") (defaultParseFn none) [toL "b", toL "c=2"] [] =
      parseGroups (toL "=") (defaultParseFn none) [toL "c=2"] [] ∧
    parseGroups (toL "=") (defaultParseFn none) [toL "a=1"] [] =
      parseGroups (toL "=") (defaultParseFn none) []
        (addPair [] (toL "a") (defaultParseFn none (toL "a") (toL "1"))) := by
  constructor
  · exact (parse_group_kept_iff_two_parts.1 (toL "b") [toL "c=2"] (toL "=")
      (defaultParseFn none) []).1 (by decide)
  · exact ((parse_group_kept_iff_two_parts.1 (toL "a=1") [] (toL "=")
      (defaultParseFn none) []).2 (toL "a") (toL "1") (by decide)).2
      (toL "a") (toL "1") (by decide) (by decide)

/-! ## The URL-strip step (claim C6) -/

theorem matchToQ_of_not_mem {s : JSStr} (h : '?' ∉ s) : matchToQ s = none := by
  induction s with
  | nil => rfl
  | cons c rest ih =>
    have hc : ¬c = '?' := fun hc => h (by simp [hc])
    have hrest : '?' ∉ rest := fun hm => h (List.mem_cons_of_mem _ hm)
    by_cases hLT : isLineTerminator c
    · simp [matchToQ, hc, hLT]
    · simp [matchToQ, hc, hLT, ih hrest]

theorem stripUrlPart_of_not_mem {s : JSStr} (h : '?' ∉ s) : stripUrlPart s = s := by
  induction s with
  | nil => rfl
  | cons c rest ih =>
    have hrest : '?' ∉ rest := fun hm => h (List.mem_cons_of_mem _ hm)
    simp [stripUrlPart, matchToQ_of_not_mem h, ih hrest]

theorem mem_of_matchToQ_some {s : JSStr} {r : JSStr} (h : matchToQ s = some r) : '?' ∈ s := by
  induction s with
  | nil => simp [matchToQ] at h
  | cons c rest ih =>
    by_cases hc : c = '?'
    · simp [hc]
    · by_cases hLT : isLineTerminator c
      · simp [matchToQ, hc, hLT] at h
      · simp only [matchToQ, if_neg hc, hLT, Bool.false_eq_true, if_false] at h
        exact List.mem_cons_of_mem _ (ih h)

theorem not_mem_of_matchToQ_none {s : JSStr} (hLT : ∀ c ∈ s, isLineTerminator c = false)
    (h : matchToQ s = none) : '?' ∉ s := by
  induction s with
  | nil => simp
  | cons c rest ih =>
    have hc : isLineTerminator c = false := hLT c (List.mem_cons_self _ _)
    by_cases hq : c = '?'
    · simp [matchToQ, hq] at h
    · simp only [matchToQ, if_neg hq, hc, Bool.false_eq_true, if_false] at h
      have := ih (fun x hx => hLT x (List.mem_cons_of_mem _ hx)) h
      simp [hq, this, Ne.symm hq]

/-- Counterexample to claim C6 as stated: on a source containing a line
terminator before the first `'?'`, the regular expression `/.*?\?/` (whose
`.` does not match line terminators) does not remove the whole leading
prefix — it removes only the part after the last line terminator — so the
kept prefix ends up inside the first parsed key. -/
theorem stripUrlPart_counterexample :
    stripUrlPart (toL "a\n?b=1") ≠ specStrip (toL "a\n?b=1") ∧
    stripUrlPart (toL "a\n?b=1") = toL "a\nb=1" ∧
    specStrip (toL "a\n?b=1") = toL "b=1" ∧
    parse (.str (toL "a\n?b=1")) none none none = .ok [(toL "a\nb", .str (toL "1"))] := by
  refine ⟨by decide, rfl, rfl, rfl⟩

/-- Claim C6, amended: for a source containing no ECMAScript line
terminator, `parse`'s preprocessing removes the longest leading substring
ending at the first `'?'`, if one exists, and a string containing no `'?'`
is used as-is.  (With a line terminator before the first `'?'`, the text up
to and including the last such line terminator is kept instead.) -/
theorem stripUrlPart_eq_specStrip_of_no_line_terminator :
    ∀ s : JSStr, (∀ c ∈ s, isLineTerminator c = false) →
      stripUrlPart s = specStrip s := by
  intro s h
  induction s with
  | nil => rfl
  | cons c rest ih =>
    have hrest : ∀ x ∈ rest, isLineTerminator x = false :=
      fun x hx => h x (List.mem_cons_of_mem _ hx)
    by_cases hq : c = '?'
    · subst hq
      simp [stripUrlPart, matchToQ, specStrip, dropThroughQ]
    · have hLT : isLineTerminator c = false := h c (List.mem_cons_self _ _)
      have hm : matchToQ (c :: rest) = matchToQ rest := by
        simp [matchToQ, hq, hLT]
      cases hmr : matchToQ rest with
      | some r =>
        have hmem : '?' ∈ rest := mem_of_matchToQ_some hmr
        have hstrip : stripUrlPart (c :: rest) = r := by
          simp [stripUrlPart, hm, hmr]
        have hstriprest : stripUrlPart rest = r := by
          cases rest with
          | nil => simp [matchToQ] at hmr
          | cons x xs => simp [stripUrlPart, hmr]
        rw [hstrip, specStrip, if_pos (List.mem_cons_of_mem _ hmem)]
        rw [dropThroughQ, if_neg hq]
        rw [← hstriprest, ih hrest, specStrip, if_pos hmem]
      | none =>
        have hnr : '?' ∉ rest := not_mem_of_matchToQ_none hrest hmr
        have hnc : '?' ∉ (c :: rest) := by
          intro hmem
          rcases List.mem_cons.mp hmem with h1 | h2
          · exact hq h1.symm
          · exact hnr h2
        simp [stripUrlPart, hm, hmr, specStrip, hnc, stripUrlPart_of_not_mem hnr]

/-- Witness for the amended C6 on a URL-shaped source. -/
theorem stripUrlPart_eq_specStrip_witness :
    stripUrlPart (toL "http://foo.com?a=1&b=s") = specStrip (toL "http://foo.com?a=1&b=s") :=
  stripUrlPart_eq_specStrip_of_no_line_terminator (toL "http://foo.com?a=1&b=s") (by decide)

/-! ## The encoding character set (claim C7) -/

/-- Claim C7: the encode primitive used by `stringify` leaves exactly the
standard (RFC 3986) unreserved characters plus the five reserved characters
`! ' ( ) *` (code points 33, 39, 40, 41, 42) unescaped, and `parse`'s
decoding reverses the encoding: `stringify({test: "a &* b"})` is
`"test=a%20%26*%20b"` and parsing that string gives back
`{test: "a &* b"}`. -/
theorem encode_reserved_set_and_symmetry :
    (∀ c : Char, isUriUnescaped c = true ↔
      (isRfc3986Unreserved c = true ∨ c.toNat ∈ [33, 39, 40, 41, 42])) ∧
    stringify (some [(toL "test", .str (toL "a &* b"))]) none none none =
      toL "test=a%20%26*%20b" ∧
    parse (.str (toL "test=a%20%26*%20b")) none none none =
      .ok [(toL "test", .str (toL "a &* b"))] := by
  refine ⟨?_, rfl, rfl⟩
  intro c
  simp only [isUriUnescaped, isRfc3986Unreserved, List.mem_cons, List.not_mem_nil, or_false,
    Bool.or_eq_true, Bool.and_eq_true, decide_eq_true_eq]
  omega

/-! ## Emission structure of `stringify` (claims C8, C9) -/

theorem stringifyLoop_eq_append (eq : JSStr) (fn : JSStr → JSVal → JSVal) :
    ∀ (o : QueryObject) (qs : List JSStr),
      stringifyLoop eq fn o qs =
        qs ++ (o.map (fun kv => pairsOfEntry eq fn kv.1 kv.2)).flatten := by
  intro o
  induction o with
  | nil => intro qs; simp [stringifyLoop]
  | cons kv rest ih =>
    intro qs
    obtain ⟨key, value⟩ := kv
    cases value with
    | und => simp [stringifyLoop, pairsOfEntry, ih]
    | arr xs => simp [stringifyLoop, pairsOfEntry, ih]
    | null => simp [stringifyLoop, pairsOfEntry, ih]
    | bool b => simp [stringifyLoop, pairsOfEntry, ih]
    | num n => simp [stringifyLoop, pairsOfEntry, ih]
    | str s => simp [stringifyLoop, pairsOfEntry, ih]

theorem parseGroups_eq_decodedPairs (eq : JSStr) (fn : JSStr → JSStr → JSVal) :
    ∀ (gs : List JSStr) (obj : QueryObject),
      parseGroups eq fn gs obj =
        match decodedPairs eq gs with
        | none => .error ()
        | some ps => .ok (ps.foldl (fun o kv => addPair o kv.1 (fn kv.1 kv.2)) obj) := by
  intro gs
  induction gs with
  | nil => intro obj; rfl
  | cons g rest ih =>
    intro obj
    match hsplit : jsSplit g eq with
    | [] => simp [parseGroups, decodedPairs, hsplit, ih]
    | [a] => simp [parseGroups, decodedPairs, hsplit, ih]
    | a :: b :: c :: t => simp [parseGroups, decodedPairs, hsplit, ih]
    | [k0, v0] =>
      cases hk : decodeURIComponent k0 with
      | none => simp [parseGroups, decodedPairs, hsplit, hk]
      | some k =>
        cases hv : decodeURIComponent v0 with
        | none => simp [parseGroups, decodedPairs, hsplit, hk, hv]
        | some v =>
          cases hps : decodedPairs eq rest with
          | none => simp [parseGroups, decodedPairs, hsplit, hk, hv, hps, ih]
          | some ps => simp [parseGroups, decodedPairs, hsplit, hk, hv, hps, ih]

/-- Every separator resolved by the falsy-default rule is non-empty. -/
theorem defaultSep_ne_nil (s : Option JSStr) (d : Char) : defaultSep s d ≠ [] := by
  cases s with
  | none => simp [defaultSep]
  | some l =>
    by_cases hl : l = [] <;> simp [defaultSep, hl]

theorem jsSplit_nil (sep : JSStr) (h : sep ≠ []) : jsSplit [] sep = [[]] := by
  rw [jsSplit, if_neg h]
  rfl

/-- Claim C9: `stringify` visits the keys in the mapping's iteration order
and emits, per key, exactly the pairs described by the spec — none for an
`undefined` value, one per element in element order for a sequence, one for
any other value — joined by the group separator with nothing leading or
trailing (`joinWith`); boolean and numeric scalars are coerced to their
canonical text (`false` to `"false"`, integers to signed decimal). -/
theorem stringify_emission_order_and_coercion :
    (∀ (o : QueryObject) (sep eq : Option JSStr) (fn : Option (JSStr → JSVal → JSVal)),
        stringify (some o) sep eq fn =
          joinWith (defaultSep sep '&')
            ((o.map (fun kv =>
              pairsOfEntry (defaultSep eq '=') (defaultStringifyFn fn) kv.1 kv.2)).flatten)) ∧
    (∀ b, toJSString (.bool b) = if b then toL "true" else toL "false") ∧
    toJSString (.num (-12)) = toL "-12" := by
  refine ⟨?_, fun b => rfl, rfl⟩
  intro o sep eq fn
  have h : stringify (some o) sep eq fn =
      joinWith (defaultSep sep '&')
        (stringifyLoop (defaultSep eq '=') (defaultStringifyFn fn) o []) := rfl
  rw [h, stringifyLoop_eq_append, List.nil_append]

/-- Claim C8: the transform callback is invoked exactly once per discovered
scalar occurrence and its return value replaces the value.  `parse` with
callback `fn` equals the fold that applies `fn` once to each decoded
(key, value) occurrence (`decodedPairs`, computed independently of `fn`)
and inserts the result; `stringify`'s loop emits exactly one pair per entry
of `fnArgs` (one argument per array element, one per defined scalar, none
for `undefined`), each carrying `fn`'s return value. -/
theorem transform_called_once_per_occurrence :
    (∀ (s : JSStr) (sep eq : Option JSStr) (fn : JSStr → JSStr → JSVal),
        parse (.str s) sep eq (some fn) =
          match decodedPairs (defaultSep eq '=') (jsSplit (stripUrlPart s) (defaultSep sep '&')) with
          | none => .error ()
          | some ps => .ok (ps.foldl (fun obj kv => addPair obj kv.1 (fn kv.1 kv.2)) [])) ∧
    (∀ (o : QueryObject) (eq : JSStr) (fn : JSStr → JSVal → JSVal) (qs : List JSStr),
        stringifyLoop eq fn o qs =
          qs ++ (fnArgs o).map (fun kv =>
            encodeURIComponent kv.1 ++ eq ++ encodeURIComponent (toJSString (fn kv.1 kv.2)))) := by
  constructor
  · intro s sep eq fn
    by_cases hs : s = []
    · subst hs
      have h1 : jsSplit (stripUrlPart []) (defaultSep sep '&') = [[]] :=
        jsSplit_nil _ (defaultSep_ne_nil sep '&')
      rw [parse, if_pos rfl, h1, decodedPairs,
        jsSplit_nil _ (defaultSep_ne_nil eq '='), decodedPairs]
      rfl
    · rw [parse, if_neg hs]
      exact parseGroups_eq_decodedPairs _ _ _ _
  · intro o eq fn
    induction o with
    | nil => intro qs; simp [stringifyLoop, fnArgs]
    | cons kv rest ih =>
      intro qs
      obtain ⟨key, value⟩ := kv
      cases value with
      | und => simp [stringifyLoop, fnArgs, ih]
      | arr xs => simp [stringifyLoop, fnArgs, ih, List.map_map, Function.comp]
      | null => simp [stringifyLoop, fnArgs, ih]
      | bool b => simp [stringifyLoop, fnArgs, ih]
      | num n => simp [stringifyLoop, fnArgs, ih]
      | str s2 => simp [stringifyLoop, fnArgs, ih]

/-- Lemma: the `parseGroups` loop throws exactly when some retained group's
key or value fails to percent-decode. -/
theorem parseGroups_error_iff (eq : JSStr) (fn : JSStr → JSStr → JSVal) :
    ∀ (gs : List JSStr) (obj : QueryObject),
      parseGroups eq fn gs obj = .error () ↔
        ∃ g ∈ gs, ∃ k0 v0, jsSplit g eq = [k0, v0] ∧
          (decodeURIComponent k0 = none ∨ decodeURIComponent v0 = none) := by
  intro gs
  induction gs with
  | nil =>
    intro obj
    simp [parseGroups]
  | cons g rest ih =>
    intro obj
    match hsplit : jsSplit g eq with
    | [] =>
      rw [parseGroups, hsplit]
      simp only [List.mem_cons, exists_eq_or_imp, hsplit]
      rw [ih]
      simp
    | [a] =>
      rw [parseGroups, hsplit]
      simp only [List.mem_cons, exists_eq_or_imp, hsplit]
      rw [ih]
      simp
    | a :: b :: c :: t =>
      rw [parseGroups, hsplit]
      simp only [List.mem_cons, exists_eq_or_imp, hsplit]
      rw [ih]
      simp
    | [k0, v0] =>
      have hred : parseGroups eq fn (g :: rest) obj =
          (match decodeURIComponent k0 with
           | none => .error ()
           | some key =>
             match decodeURIComponent v0 with
             | none => .error ()
             | some dv => parseGroups eq fn rest (addPair obj key (fn key dv))) := by
        rw [parseGroups, hsplit]
      rw [hred]
      cases hk : decodeURIComponent k0 with
      | none =>
        exact iff_of_true rfl ⟨g, List.mem_cons_self _ _, k0, v0, hsplit, Or.inl hk⟩
      | some k =>
        cases hv : decodeURIComponent v0 with
        | none =>
          exact iff_of_true rfl ⟨g, List.mem_cons_self _ _, k0, v0, hsplit, Or.inr hv⟩
        | some v =>
          show parseGroups eq fn rest (addPair obj k (fn k v)) = .error () ↔ _
          rw [ih]
          constructor
          · rintro ⟨g2, hg2, k2, v2, hs2, hor⟩
            exact ⟨g2, List.mem_cons_of_mem _ hg2, k2, v2, hs2, hor⟩
          · rintro ⟨g2, hg2, k2, v2, hs2, hor⟩
            rcases List.mem_cons.mp hg2 with rfl | hmem
            · rw [hsplit] at hs2
              injection hs2 with h1 h2
              injection h2 with h2 h3
              subst h1
              subst h2
              rcases hor with hbad | hbad
              · rw [hk] at hbad
                cases hbad
              · rw [hv] at hbad
                cases hbad
            · exact ⟨g2, hmem, k2, v2, hs2, hor⟩

/-- Claim C5: `parse` throws exactly when percent-decoding the key or value
of a retained group throws (the decode primitive's error propagating to the
caller, modelled as `.error ()`); an empty, absent, or non-string source
yields the empty mapping without error. -/
theorem parse_error_iff_decode_failure :
    (∀ (v : JSVal) (sep eq : Option JSStr) (fn : Option (JSStr → JSStr → JSVal)),
        (∀ s, v ≠ .str s) → parse v sep eq fn = .ok []) ∧
    (∀ (sep eq : Option JSStr) (fn : Option (JSStr → JSStr → JSVal)),
        parse (.str []) sep eq fn = .ok []) ∧
    (∀ (s : JSStr) (sep eq : Option JSStr) (fn : Option (JSStr → JSStr → JSVal)),
        parse (.str s) sep eq fn = .error () ↔
          ∃ g ∈ jsSplit (stripUrlPart s) (defaultSep sep '&'),
            ∃ k0 v0, jsSplit g (defaultSep eq '=') = [k0, v0] ∧
              (decodeURIComponent k0 = none ∨ decodeURIComponent v0 = none)) := by
  refine ⟨?_, ?_, ?_⟩
  · intro v sep eq fn h
    cases v with
    | str s => exact absurd rfl (h s)
    | und => rfl
    | null => rfl
    | bool b => rfl
    | num n => rfl
    | arr xs => rfl
  · intro sep eq fn
    rfl
  · intro s sep eq fn
    by_cases hs : s = []
    · subst hs
      have h1 : stripUrlPart [] = ([] : JSStr) := rfl
      constructor
      · intro h
        rw [parse, if_pos rfl] at h
        cases h
      · rintro ⟨g, hg, k0, v0, hsplit, -⟩
        rw [h1, jsSplit_nil _ (defaultSep_ne_nil sep '&')] at hg
        simp only [List.mem_singleton] at hg
        subst hg
        rw [jsSplit_nil _ (defaultSep_ne_nil eq '=')] at hsplit
        cases hsplit
    · rw [parse, if_neg hs]
      exact parseGroups_error_iff _ _ _ _

/-- Witness for C5: a non-string source parses to the empty mapping; a
retained group with an invalid percent escape makes `parse` throw. -/
theorem parse_error_iff_decode_failure_witness :
    parse .null none none none = .ok [] ∧
    parse (.str (toL "a=%GG")) none none none = .error () := by
  constructor
  · exact parse_error_iff_decode_failure.1 .null none none none (fun s h => by cases h)
  · exact (parse_error_iff_decode_failure.2.2 (toL "a=%GG") none none none).mpr
      ⟨toL "a=%GG", by decide, toL "a", toL "%GG", by decide, Or.inr (by decide)⟩

/-! ## The decode primitive inverts the encode primitive -/

theorem hexVal_hexDigit (d : Nat) (h : d < 16) : hexVal (hexDigit d) = some d := by
  interval_cases d <;> rfl

theorem escByte_hexDigit (b : Nat) (h : b < 256) :
    escByte (hexDigit (b / 16)) (hexDigit (b % 16)) = some b := by
  simp only [escByte, hexVal_hexDigit _ (show b / 16 < 16 by omega),
    hexVal_hexDigit _ (show b % 16 < 16 by omega)]
  exact congrArg some (by omega)

theorem readEscByte_escape (b : Nat) (h : b < 256) (t : JSStr) :
    readEscByte ('%' :: hexDigit (b / 16) :: hexDigit (b % 16) :: t) = some (b, t) := by
  simp [readEscByte, escByte_hexDigit b h]

theorem readEscByte_length {s t : JSStr} {b : Nat}
    (h : readEscByte s = some (b, t)) : s.length = t.length + 3 := by
  match s with
  | [] => simp [readEscByte] at h
  | [a] => simp [readEscByte] at h
  | [a, a2] => simp [readEscByte] at h
  | a :: a2 :: a3 :: t0 =>
    by_cases hp : a = '%'
    · subst hp
      simp only [readEscByte, if_pos rfl] at h
      cases hb : escByte a2 a3 with
      | none => rw [hb] at h; simp at h
      | some b0 =>
        rw [hb] at h
        simp only [if_true, Option.map_some', Option.some.injEq, Prod.mk.injEq] at h
        rw [← h.2]
        simp
    · simp [readEscByte, hp] at h

theorem readCont_succ (k b : Nat) (h80 : 0x80 ≤ b) (hC0 : b < 0xC0) (r : JSStr) :
    readCont (k + 1) ('%' :: hexDigit (b / 16) :: hexDigit (b % 16) :: r) =
      (readCont k r).map (fun br => ((b - 0x80) :: br.1, br.2)) := by
  simp [readCont, readEscByte_escape b (by omega) r, h80, hC0]

theorem readCont_one (b : Nat) (h80 : 0x80 ≤ b) (hC0 : b < 0xC0) (r : JSStr) :
    readCont 1 ('%' :: hexDigit (b / 16) :: hexDigit (b % 16) :: r) = some ([b - 0x80], r) := by
  rw [show (1 : Nat) = 0 + 1 from rfl, readCont_succ 0 b h80 hC0 r]
  simp [readCont]

theorem readCont_two (b1 b2 : Nat) (h1 : 0x80 ≤ b1) (h2 : b1 < 0xC0)
    (h3 : 0x80 ≤ b2) (h4 : b2 < 0xC0) (r : JSStr) :
    readCont 2 ('%' :: hexDigit (b1 / 16) :: hexDigit (b1 % 16) ::
        '%' :: hexDigit (b2 / 16) :: hexDigit (b2 % 16) :: r) =
      some ([b1 - 0x80, b2 - 0x80], r) := by
  rw [show (2 : Nat) = 1 + 1 from rfl, readCont_succ 1 b1 h1 h2, readCont_one b2 h3 h4 r]
  rfl

theorem readCont_three (b1 b2 b3 : Nat) (h1 : 0x80 ≤ b1) (h2 : b1 < 0xC0)
    (h3 : 0x80 ≤ b2) (h4 : b2 < 0xC0) (h5 : 0x80 ≤ b3) (h6 : b3 < 0xC0) (r : JSStr) :
    readCont 3 ('%' :: hexDigit (b1 / 16) :: hexDigit (b1 % 16) ::
        '%' :: hexDigit (b2 / 16) :: hexDigit (b2 % 16) ::
        '%' :: hexDigit (b3 / 16) :: hexDigit (b3 % 16) :: r) =
      some ([b1 - 0x80, b2 - 0x80, b3 - 0x80], r) := by
  rw [show (3 : Nat) = 2 + 1 from rfl, readCont_succ 2 b1 h1 h2,
    readCont_two b2 b3 h3 h4 h5 h6 r]
  rfl

theorem contCount_one (b : Nat) (h1 : 0xC0 ≤ b) (h2 : b < 0xE0) : contCount b = some 1 := by
  rw [contCount, if_neg (by omega), if_pos (by omega)]

theorem contCount_two (b : Nat) (h1 : 0xE0 ≤ b) (h2 : b < 0xF0) : contCount b = some 2 := by
  rw [contCount, if_neg (by omega), if_neg (by omega), if_pos (by omega)]

theorem contCount_three (b : Nat) (h1 : 0xF0 ≤ b) (h2 : b < 0xF8) : contCount b = some 3 := by
  rw [contCount, if_neg (by omega), if_neg (by omega), if_neg (by omega), if_pos (by omega)]

theorem readCont_length : ∀ (k : Nat) {s : JSStr} {p : List Nat × JSStr},
    readCont k s = some p → s.length = p.2.length + 3 * k := by
  intro k
  induction k with
  | zero =>
    intro s p h
    simp only [readCont, Option.some.injEq] at h
    subst h
    simp
  | succ k ih =>
    intro s p h
    simp only [readCont] at h
    cases hre : readEscByte s with
    | none => rw [hre] at h; simp at h
    | some bt =>
      obtain ⟨b, t⟩ := bt
      simp only [hre] at h
      have hlen := readEscByte_length hre
      by_cases hrange : 0x80 ≤ b ∧ b < 0xC0
      · rw [if_pos hrange] at h
        cases hrc : readCont k t with
        | none => rw [hrc] at h; simp at h
        | some q =>
          rw [hrc] at h
          simp only [Option.map_some', Option.some.injEq] at h
          subst h
          have hq := ih hrc
          simp only []
          omega
      · rw [if_neg hrange] at h
        simp at h

theorem decodeF_fuel : ∀ (f : Nat) (s : JSStr), s.length ≤ f →
    decodeF f s = decodeF s.length s := by
  intro f
  induction f using Nat.strong_induction_on with
  | _ f ih =>
    match f with
    | 0 =>
      intro s hs
      have : s = [] := List.eq_nil_of_length_eq_zero (by omega)
      subst this
      rfl
    | f + 1 =>
      intro s hs
      match s with
      | [] => rfl
      | c :: rest =>
        have hr : rest.length ≤ f := by
          simp only [List.length_cons] at hs
          omega
        show decodeF (f + 1) (c :: rest) = decodeF (rest.length + 1) (c :: rest)
        by_cases hc : c = '%'
        · subst hc
          simp only [decodeF]
          rw [if_neg (fun h => h rfl), if_neg (fun h => h rfl)]
          cases hre : readEscByte ('%' :: rest) with
          | none => rfl
          | some bt =>
            obtain ⟨b, t⟩ := bt
            have ht3 := readEscByte_length hre
            simp only [List.length_cons] at ht3
            simp only [hre]
            by_cases hb : b < 0x80
            · rw [if_pos hb, if_pos hb,
                ih f (by omega) t (by omega),
                ih rest.length (by omega) t (by omega)]
            · rw [if_neg hb, if_neg hb]
              cases hcc : contCount b with
              | none => rfl
              | some k =>
                simp only []
                cases hrc : readCont k t with
                | none => rfl
                | some xsr =>
                  obtain ⟨xs, r⟩ := xsr
                  have hr3 : t.length = r.length + 3 * k := by
                    simpa using readCont_length k hrc
                  simp only []
                  cases hcu : combineUtf8 b xs with
                  | none => rfl
                  | some v =>
                    simp only []
                    rw [ih f (by omega) r (by omega),
                      ih rest.length (by omega) r (by omega)]
        · simp only [decodeF]
          rw [if_pos hc, if_pos hc,
            ih f (by omega) rest (by omega),
            ih rest.length (by omega) rest (by omega)]

theorem map_cons_congr {o : Option JSStr} {x : Nat} {c : Char} (h : x = c.toNat) :
    o.map (Char.ofNat x :: ·) = o.map (c :: ·) := by
  rw [h, Char.ofNat_toNat]

theorem decodeF_encodeChar (c : Char) (r : JSStr) :
    ∀ f, (encodeChar c ++ r).length ≤ f →
      decodeF f (encodeChar c ++ r) = (decodeF r.length r).map (c :: ·) := by
  intro f hf
  by_cases hu : isUriUnescaped c
  · rw [encodeChar, if_pos hu, List.singleton_append] at hf ⊢
    simp only [List.length_cons] at hf
    obtain ⟨g, rfl⟩ : ∃ g, f = g + 1 := ⟨f - 1, by omega⟩
    have hp : c ≠ '%' := by
      intro h
      rw [h] at hu
      exact absurd hu (by decide)
    rw [decodeF, if_pos hp, decodeF_fuel g r (by omega)]
  · have hval : c.toNat < 0xd800 ∨ (0xdfff < c.toNat ∧ c.toNat < 0x110000) := c.valid
    rw [encodeChar, if_neg hu] at hf ⊢
    by_cases hc1 : c.toNat < 0x80
    · have he : utf8Bytes c = [c.toNat] := by
        simp only [utf8Bytes, if_pos hc1]
      rw [he] at hf ⊢
      simp only [List.map_cons, List.map_nil, List.flatten_cons, List.flatten_nil,
        List.append_nil, List.nil_append, byteEscape, List.cons_append,
        List.length_cons] at hf ⊢
      obtain ⟨g, rfl⟩ : ∃ g, f = g + 1 := ⟨f - 1, by omega⟩
      simp [decodeF, readEscByte_escape c.toNat (by omega) r, hc1,
        decodeF_fuel g r (by omega), Char.ofNat_toNat]
    · by_cases hc2 : c.toNat < 0x800
      · have he : utf8Bytes c = [0xC0 + c.toNat / 64, 0x80 + c.toNat % 64] := by
          simp only [utf8Bytes, if_neg hc1, if_pos hc2]
        rw [he] at hf ⊢
        simp only [List.map_cons, List.map_nil, List.flatten_cons, List.flatten_nil,
          List.append_nil, List.nil_append, byteEscape, List.cons_append,
          List.length_cons] at hf ⊢
        obtain ⟨g, rfl⟩ : ∃ g, f = g + 1 := ⟨f - 1, by omega⟩
        have hb1 := readEscByte_escape (0xC0 + c.toNat / 64) (by omega)
          ('%' :: hexDigit ((0x80 + c.toNat % 64) / 16) ::
            hexDigit ((0x80 + c.toNat % 64) % 16) :: r)
        have hcc := contCount_one (0xC0 + c.toNat / 64) (by omega) (by omega)
        have hrc := readCont_one (0x80 + c.toNat % 64) (by omega) (by omega) r
        simp [decodeF, hb1, hcc, hrc, decodeF_fuel g r (by omega), combineUtf8]
        split_ifs <;> first
          | (exfalso; omega)
          | (exact map_cons_congr (by omega))
      · by_cases hc3 : c.toNat < 0x10000
        · have he : utf8Bytes c =
              [0xE0 + c.toNat / 4096, 0x80 + c.toNat / 64 % 64, 0x80 + c.toNat % 64] := by
            simp only [utf8Bytes, if_neg hc1, if_neg hc2, if_pos hc3]
          rw [he] at hf ⊢
          simp only [List.map_cons, List.map_nil, List.flatten_cons, List.flatten_nil,
            List.append_nil, List.nil_append, byteEscape, List.cons_append,
            List.length_cons] at hf ⊢
          obtain ⟨g, rfl⟩ : ∃ g, f = g + 1 := ⟨f - 1, by omega⟩
          have hb1 := readEscByte_escape (0xE0 + c.toNat / 4096) (by omega)
            ('%' :: hexDigit ((0x80 + c.toNat / 64 % 64) / 16) ::
              hexDigit ((0x80 + c.toNat / 64 % 64) % 16) ::
              '%' :: hexDigit ((0x80 + c.toNat % 64) / 16) ::
              hexDigit ((0x80 + c.toNat % 64) % 16) :: r)
          have hcc := contCount_two (0xE0 + c.toNat / 4096) (by omega) (by omega)
          have hrc := readCont_two (0x80 + c.toNat / 64 % 64) (0x80 + c.toNat % 64)
            (by omega) (by omega) (by omega) (by omega) r
          simp [decodeF, hb1, hcc, hrc, decodeF_fuel g r (by omega), combineUtf8]
          split_ifs <;> first
            | (exfalso; omega)
            | (exact map_cons_congr (by omega))
        · have he : utf8Bytes c =
              [0xF0 + c.toNat / 262144, 0x80 + c.toNat / 4096 % 64,
                0x80 + c.toNat / 64 % 64, 0x80 + c.toNat % 64] := by
            simp only [utf8Bytes, if_neg hc1, if_neg hc2, if_neg hc3]
          rw [he] at hf ⊢
          simp only [List.map_cons, List.map_nil, List.flatten_cons, List.flatten_nil,
            List.append_nil, List.nil_append, byteEscape, List.cons_append,
            List.length_cons] at hf ⊢
          obtain ⟨g, rfl⟩ : ∃ g, f = g + 1 := ⟨f - 1, by omega⟩
          have hb1 := readEscByte_escape (0xF0 + c.toNat / 262144) (by omega)
            ('%' :: hexDigit ((0x80 + c.toNat / 4096 % 64) / 16) ::
              hexDigit ((0x80 + c.toNat / 4096 % 64) % 16) ::
              '%' :: hexDigit ((0x80 + c.toNat / 64 % 64) / 16) ::
              hexDigit ((0x80 + c.toNat / 64 % 64) % 16) ::
              '%' :: hexDigit ((0x80 + c.toNat % 64) / 16) ::
              hexDigit ((0x80 + c.toNat % 64) % 16) :: r)
          have hcc := contCount_three (0xF0 + c.toNat / 262144) (by omega) (by omega)
          have hrc := readCont_three (0x80 + c.toNat / 4096 % 64) (0x80 + c.toNat / 64 % 64)
            (0x80 + c.toNat % 64) (by omega) (by omega) (by omega) (by omega)
            (by omega) (by omega) r
          simp [decodeF, hb1, hcc, hrc, decodeF_fuel g r (by omega), combineUtf8]
          split_ifs <;> first
            | (exfalso; omega)
            | (exact map_cons_congr (by omega))

theorem encodeURIComponent_cons (c : Char) (s : JSStr) :
    encodeURIComponent (c :: s) = encodeChar c ++ encodeURIComponent s := by
  simp [encodeURIComponent]

theorem decodeF_encode_append (s : JSStr) :
    ∀ (t : JSStr) (f : Nat), (encodeURIComponent s ++ t).length ≤ f →
      decodeF f (encodeURIComponent s ++ t) = (decodeF t.length t).map (s ++ ·) := by
  induction s with
  | nil =>
    intro t f hf
    simp only [encodeURIComponent, List.map_nil, List.flatten_nil, List.nil_append] at hf ⊢
    rw [decodeF_fuel f t hf]
    cases decodeF t.length t <;> rfl
  | cons c cs ih =>
    intro t f hf
    rw [encodeURIComponent_cons, List.append_assoc] at hf ⊢
    rw [decodeF_encodeChar c (encodeURIComponent cs ++ t) f hf]
    rw [ih t (encodeURIComponent cs ++ t).length (le_refl _)]
    cases decodeF t.length t <;> rfl

/-- `decodeURIComponent` inverts `encodeURIComponent` on every string. -/
theorem decode_encode (s : JSStr) : decodeURIComponent (encodeURIComponent s) = some s := by
  rw [decodeURIComponent]
  have h := decodeF_encode_append s [] (encodeURIComponent s ++ []).length (le_refl _)
  rw [List.append_nil] at h
  rw [h]
  simp [decodeF]

/-! ## Characters of encoded output -/

theorem utf8Bytes_lt_256 (c : Char) : ∀ b ∈ utf8Bytes c, b < 256 := by
  have hval : c.toNat < 0xd800 ∨ (0xdfff < c.toNat ∧ c.toNat < 0x110000) := c.valid
  intro b hb
  rw [utf8Bytes] at hb
  split_ifs at hb <;> simp at hb <;> omega

theorem hexDigit_not_special (d : Nat) (h : d < 16) :
    hexDigit d ≠ '&' ∧ hexDigit d ≠ '=' ∧ hexDigit d ≠ '?' := by
  interval_cases d <;> exact ⟨by decide, by decide, by decide⟩

theorem encodeChar_not_special {x c : Char} (hx : x ∈ encodeChar c) :
    x ≠ '&' ∧ x ≠ '=' ∧ x ≠ '?' := by
  rw [encodeChar] at hx
  by_cases hu : isUriUnescaped c
  · rw [if_pos hu] at hx
    simp at hx
    subst hx
    refine ⟨?_, ?_, ?_⟩ <;> (intro h; rw [h] at hu; exact absurd hu (by decide))
  · rw [if_neg hu] at hx
    simp only [List.mem_flatten, List.mem_map] at hx
    obtain ⟨l, ⟨b, hb, rfl⟩, hxl⟩ := hx
    have hlt := utf8Bytes_lt_256 c b hb
    simp [byteEscape] at hxl
    rcases hxl with rfl | rfl | rfl
    · exact ⟨by decide, by decide, by decide⟩
    · exact hexDigit_not_special (b / 16) (by omega)
    · exact hexDigit_not_special (b % 16) (by omega)

theorem encodeURIComponent_not_special {x : Char} {s : JSStr}
    (hx : x ∈ encodeURIComponent s) : x ≠ '&' ∧ x ≠ '=' ∧ x ≠ '?' := by
  rw [encodeURIComponent] at hx
  simp only [List.mem_flatten, List.mem_map] at hx
  obtain ⟨l, ⟨c, hc, rfl⟩, hxl⟩ := hx
  exact encodeChar_not_special hxl

/-! ## Splitting a joined string on a single-character separator -/

theorem splitGo_fuel (d : Char) : ∀ (f : Nat) (s : JSStr) (acc : JSStr),
    s.length ≤ f → splitGo [d] f s acc = splitGo [d] s.length s acc := by
  intro f
  induction f using Nat.strong_induction_on with
  | _ f ih =>
    match f with
    | 0 =>
      intro s acc hs
      have : s = [] := List.eq_nil_of_length_eq_zero (by omega)
      subst this
      rfl
    | f + 1 =>
      intro s acc hs
      match s with
      | [] => rfl
      | c :: rest =>
        have hr : rest.length ≤ f := by
          simp only [List.length_cons] at hs
          omega
        show splitGo [d] (f + 1) (c :: rest) acc = splitGo [d] (rest.length + 1) (c :: rest) acc
        by_cases hp : [d].isPrefixOf (c :: rest) = true
        · rw [splitGo, if_pos hp, splitGo, if_pos hp]
          simp only [show List.length [d] - 1 = 0 from rfl, List.drop_zero]
          rw [ih f (by omega) rest [] (by omega)]
        · rw [splitGo, if_neg hp, splitGo, if_neg hp]
          rw [ih f (by omega) rest (c :: acc) (by omega),
            ih rest.length (by omega) rest (c :: acc) (by omega)]

theorem splitGo_single_no_sep (d : Char) :
    ∀ (s : JSStr), d ∉ s → ∀ (f : Nat) (acc : JSStr), s.length ≤ f →
      splitGo [d] f s acc = [acc.reverse ++ s] := by
  intro s
  induction s with
  | nil =>
    intro _ f acc _
    match f with
    | 0 => simp [splitGo]
    | f + 1 => simp [splitGo]
  | cons c rest ih =>
    intro h f acc hf
    obtain ⟨g, rfl⟩ : ∃ g, f = g + 1 :=
      ⟨f - 1, by simp only [List.length_cons] at hf; omega⟩
    have hcd : ¬[d].isPrefixOf (c :: rest) = true := by
      simp [List.isPrefixOf]
      intro hdc
      exact h (by rw [hdc]; exact List.mem_cons_self _ _)
    rw [splitGo, if_neg hcd,
      ih (fun hm => h (List.mem_cons_of_mem _ hm)) g (c :: acc)
        (by simp only [List.length_cons] at hf; omega)]
    simp

theorem splitGo_single_piece (d : Char) :
    ∀ (p : JSStr), d ∉ p → ∀ (t : JSStr) (f : Nat) (acc : JSStr),
      (p ++ d :: t).length ≤ f →
      splitGo [d] f (p ++ d :: t) acc =
        (acc.reverse ++ p) :: splitGo [d] t.length t [] := by
  intro p
  induction p with
  | nil =>
    intro _ t f acc hf
    simp only [List.nil_append, List.length_cons] at hf ⊢
    obtain ⟨g, rfl⟩ : ∃ g, f = g + 1 := ⟨f - 1, by omega⟩
    have hpre : [d].isPrefixOf (d :: t) = true := by
      simp [List.isPrefixOf]
    show (if [d].isPrefixOf (d :: t) = true then
        List.reverse acc :: splitGo [d] g (List.drop (List.length [d] - 1) t) []
      else splitGo [d] g t (d :: acc)) = _
    rw [if_pos hpre]
    simp only [show List.length [d] - 1 = 0 from rfl, List.drop_zero]
    rw [splitGo_fuel d g t [] (by omega)]
    simp
  | cons a p2 ih =>
    intro h t f acc hf
    simp only [List.cons_append, List.length_cons] at hf ⊢
    obtain ⟨g, rfl⟩ : ∃ g, f = g + 1 := ⟨f - 1, by omega⟩
    have ha : a ≠ d := fun had => h (by rw [had]; exact List.mem_cons_self _ _)
    have hcd : ¬[d].isPrefixOf (a :: (p2 ++ d :: t)) = true := by
      simp only [List.isPrefixOf, Bool.and_eq_true, beq_iff_eq]
      intro hdc
      exact ha hdc.1.symm
    rw [splitGo, if_neg hcd,
      ih (fun hm => h (List.mem_cons_of_mem _ hm)) t g (a :: acc) (by omega)]
    simp

theorem jsSplit_single_eq (d : Char) (s : JSStr) :
    jsSplit s [d] = splitGo [d] s.length s [] := by
  rw [jsSplit, if_neg (by simp)]

theorem joinWith_cons (sep : JSStr) (p : JSStr) (q : JSStr) (rest : List JSStr) :
    joinWith sep (p :: q :: rest) = p ++ sep ++ joinWith sep (q :: rest) := rfl

theorem mem_joinWith {x : Char} {sep : JSStr} :
    ∀ {ps : List JSStr}, x ∈ joinWith sep ps → x ∈ sep ∨ ∃ p ∈ ps, x ∈ p := by
  intro ps
  induction ps with
  | nil => intro h; simp [joinWith] at h
  | cons p rest ih =>
    intro h
    cases rest with
    | nil =>
      right
      exact ⟨p, List.mem_cons_self _ _, h⟩
    | cons q rest2 =>
      rw [joinWith_cons] at h
      rcases List.mem_append.mp h with h1 | h2
      · rcases List.mem_append.mp h1 with h3 | h4
        · exact Or.inr ⟨p, List.mem_cons_self _ _, h3⟩
        · exact Or.inl h4
      · rcases ih h2 with h3 | ⟨p2, hp2, hxp2⟩
        · exact Or.inl h3
        · exact Or.inr ⟨p2, List.mem_cons_of_mem _ hp2, hxp2⟩

theorem jsSplit_joinWith (d : Char) :
    ∀ (pieces : List JSStr), pieces ≠ [] → (∀ p ∈ pieces, d ∉ p) →
      jsSplit (joinWith [d] pieces) [d] = pieces := by
  intro pieces
  induction pieces with
  | nil => intro h; exact absurd rfl h
  | cons p rest ih =>
    intro _ hall
    cases rest with
    | nil =>
      rw [jsSplit_single_eq]
      rw [show joinWith [d] [p] = p from rfl]
      rw [splitGo_single_no_sep d p (hall p (List.mem_cons_self _ _)) p.length [] (le_refl _)]
      simp
    | cons q rest2 =>
      have hj : joinWith [d] (p :: q :: rest2) = p ++ d :: joinWith [d] (q :: rest2) := by
        rw [joinWith_cons]
        simp
      rw [hj, jsSplit_single_eq,
        splitGo_single_piece d p (hall p (List.mem_cons_self _ _)) _ _ [] (le_refl _),
        ← jsSplit_single_eq,
        ih (by simp) (fun p2 hp2 => hall p2 (List.mem_cons_of_mem _ hp2))]
      simp

/-! ## Rebuilding the mapping from its own encoded pairs -/

theorem objGet_append_right {obj : QueryObject} {k : JSStr}
    (h : objGet obj k = none) (v : JSVal) : objGet (obj ++ [(k, v)]) k = some v := by
  induction obj with
  | nil => simp [objGet]
  | cons kv rest ih =>
    obtain ⟨k2, w⟩ := kv
    by_cases hk : k2 = k
    · simp [objGet, hk] at h
    · simp only [objGet, if_neg hk] at h
      simp [objGet, hk, ih h]

theorem objGet_append_of_ne {obj : QueryObject} {k2 k : JSStr}
    (h : objGet obj k2 = none) (hne : k2 ≠ k) (w : JSVal) :
    objGet (obj ++ [(k, w)]) k2 = none := by
  induction obj with
  | nil =>
    show objGet [(k, w)] k2 = none
    rw [objGet, if_neg (fun hx => hne hx.symm)]
    rfl
  | cons kv rest ih =>
    obtain ⟨k3, w3⟩ := kv
    by_cases hk : k3 = k2
    · simp [objGet, hk] at h
    · simp only [objGet, if_neg hk] at h
      simp [objGet, hk, ih h]

theorem objSet_append_right {obj : QueryObject} {k : JSStr}
    (h : objGet obj k = none) (v w : JSVal) :
    objSet (obj ++ [(k, v)]) k w = obj ++ [(k, w)] := by
  induction obj with
  | nil => simp [objSet]
  | cons kv rest ih =>
    obtain ⟨k2, w2⟩ := kv
    by_cases hk : k2 = k
    · simp [objGet, hk] at h
    · simp only [objGet, if_neg hk] at h
      simp [objSet, hk, ih h]

theorem addPair_of_none {obj : QueryObject} {k : JSStr}
    (h : objGet obj k = none) (v : JSVal) : addPair obj k v = obj ++ [(k, v)] := by
  rw [addPair, h]
  simp [isUndefined, objSet_of_objGet_none h]

theorem addPair_append_scalar {obj : QueryObject} {k : JSStr}
    (h : objGet obj k = none) (s : JSStr) (v : JSVal) :
    addPair (obj ++ [(k, .str s)]) k v = obj ++ [(k, .arr [.str s, v])] := by
  rw [addPair, objGet_append_right h]
  simp [isUndefined, objSet_append_right h]

theorem addPair_append_arr {obj : QueryObject} {k : JSStr}
    (h : objGet obj k = none) (l : List JSVal) (v : JSVal) :
    addPair (obj ++ [(k, .arr l)]) k v = obj ++ [(k, .arr (l ++ [v]))] := by
  rw [addPair, objGet_append_right h]
  simp [isUndefined, objSet_append_right h]

/-! ## Claim C1 hypotheses -/

theorem isStrNoSepB_str {x : JSVal} (h : isStrNoSepB x = true) : ∃ s, x = .str s := by
  cases x with
  | str s => exact ⟨s, rfl⟩
  | und => simp [isStrNoSepB] at h
  | null => simp [isStrNoSepB] at h
  | bool b => simp [isStrNoSepB] at h
  | num n => simp [isStrNoSepB] at h
  | arr xs => simp [isStrNoSepB] at h

/-! ## Parsing back the encoded pairs -/

theorem jsSplit_kv (k v : JSStr) :
    jsSplit (encodeURIComponent k ++ '=' :: encodeURIComponent v) ['='] =
      [encodeURIComponent k, encodeURIComponent v] := by
  rw [jsSplit_single_eq,
    splitGo_single_piece '=' (encodeURIComponent k)
      (fun hmem => absurd rfl (encodeURIComponent_not_special hmem).2.1) _ _ [] (le_refl _),
    splitGo_single_no_sep '=' (encodeURIComponent v)
      (fun hmem => absurd rfl (encodeURIComponent_not_special hmem).2.1) _ [] (le_refl _)]
  simp

theorem parseGroups_encoded_cons (k v : JSStr) (gs : List JSStr) (obj : QueryObject) :
    parseGroups ['='] (defaultParseFn none)
        ((encodeURIComponent k ++ '=' :: encodeURIComponent v) :: gs) obj =
      parseGroups ['='] (defaultParseFn none) gs (addPair obj k (.str v)) := by
  simp [parseGroups, jsSplit_kv, decode_encode, defaultParseFn]

theorem parseGroups_push_elems (k : JSStr) :
    ∀ (vs : List JSVal) (l : List JSVal) (obj : QueryObject) (gs : List JSStr),
      (∀ x ∈ vs, ∃ s, x = .str s) →
      objGet obj k = none →
      parseGroups ['='] (defaultParseFn none)
          ((vs.map (fun x =>
            encodeURIComponent k ++ '=' :: encodeURIComponent (toJSString x))) ++ gs)
          (obj ++ [(k, .arr l)]) =
        parseGroups ['='] (defaultParseFn none) gs (obj ++ [(k, .arr (l ++ vs))]) := by
  intro vs
  induction vs with
  | nil =>
    intro l obj gs _ _
    simp
  | cons x rest ih =>
    intro l obj gs hstr hnone
    obtain ⟨s, rfl⟩ := hstr x (List.mem_cons_self _ _)
    simp only [List.map_cons, List.cons_append, toJSString]
    rw [parseGroups_encoded_cons, addPair_append_arr hnone,
      ih (l ++ [JSVal.str s]) obj gs (fun y hy => hstr y (List.mem_cons_of_mem _ hy)) hnone]
    simp

theorem parseGroups_rebuild :
    ∀ (m obj : QueryObject),
      (∀ kv ∈ m, objGet obj kv.1 = none) →
      (m.map Prod.fst).Nodup →
      (∀ kv ∈ m, goodValAmendedB kv.2 = true) →
      parseGroups ['='] (defaultParseFn none)
          ((m.map (fun kv => pairsOfEntry ['='] (fun _ v => v) kv.1 kv.2)).flatten) obj =
        .ok (obj ++ m) := by
  intro m
  induction m with
  | nil =>
    intro obj _ _ _
    simp [parseGroups]
  | cons kv rest ih =>
    intro obj hdisj hnodup hgood
    obtain ⟨k, v⟩ := kv
    have hkobj : objGet obj k = none := hdisj (k, v) (List.mem_cons_self _ _)
    have hknotin : ∀ kv2 ∈ rest, kv2.1 ≠ k := by
      intro kv2 hkv2 heq
      simp only [List.map_cons, List.nodup_cons] at hnodup
      exact hnodup.1 (heq ▸ List.mem_map_of_mem Prod.fst hkv2)
    have hnodup2 : (rest.map Prod.fst).Nodup := by
      simp only [List.map_cons, List.nodup_cons] at hnodup
      exact hnodup.2
    have hgood2 : ∀ kv2 ∈ rest, goodValAmendedB kv2.2 = true :=
      fun kv2 h2 => hgood kv2 (List.mem_cons_of_mem _ h2)
    have hgv : goodValAmendedB v = true := hgood (k, v) (List.mem_cons_self _ _)
    match v with
    | .und => simp [goodValAmendedB] at hgv
    | .null => simp [goodValAmendedB] at hgv
    | .bool b => simp [goodValAmendedB] at hgv
    | .num n => simp [goodValAmendedB] at hgv
    | .str s =>
      have hpe : pairsOfEntry ['='] (fun _ v => v) k (JSVal.str s) =
          [encodeURIComponent k ++ ['='] ++ encodeURIComponent s] := rfl
      simp only [List.map_cons, List.flatten_cons, hpe,
        List.append_assoc, List.singleton_append, List.cons_append, List.nil_append]
      rw [parseGroups_encoded_cons, addPair_of_none hkobj,
        ih (obj ++ [(k, JSVal.str s)])
          (fun kv2 h2 => objGet_append_of_ne (hdisj kv2 (List.mem_cons_of_mem _ h2))
            (hknotin kv2 h2) _)
          hnodup2 hgood2]
      simp
    | .arr xs =>
      simp only [goodValAmendedB, Bool.and_eq_true, List.all_eq_true,
        decide_eq_true_eq] at hgv
      obtain ⟨hlen, helems⟩ := hgv
      match xs, hlen with
      | x1 :: x2 :: xs2, _ =>
        obtain ⟨s1, rfl⟩ := isStrNoSepB_str (helems x1 (List.mem_cons_self _ _))
        obtain ⟨s2, rfl⟩ :=
          isStrNoSepB_str (helems x2 (List.mem_cons_of_mem _ (List.mem_cons_self _ _)))
        have hpe : pairsOfEntry ['='] (fun _ v => v) k
              (JSVal.arr (JSVal.str s1 :: JSVal.str s2 :: xs2)) =
            List.map (fun x =>
              encodeURIComponent k ++ ['='] ++ encodeURIComponent (toJSString x))
              (JSVal.str s1 :: JSVal.str s2 :: xs2) := rfl
        have ht1 : toJSString (JSVal.str s1) = s1 := rfl
        have ht2 : toJSString (JSVal.str s2) = s2 := rfl
        simp only [List.map_cons, List.flatten_cons, hpe, ht1, ht2,
          List.append_assoc, List.singleton_append, List.cons_append, List.nil_append]
        rw [parseGroups_encoded_cons, addPair_of_none hkobj,
          parseGroups_encoded_cons, addPair_append_scalar hkobj,
          parseGroups_push_elems k xs2 [JSVal.str s1, JSVal.str s2] obj _
            (fun y hy => isStrNoSepB_str
              (helems y (List.mem_cons_of_mem _ (List.mem_cons_of_mem _ hy))))
            hkobj,
          show [JSVal.str s1, JSVal.str s2] ++ xs2 = JSVal.str s1 :: JSVal.str s2 :: xs2
            from rfl,
          ih (obj ++ [(k, JSVal.arr (JSVal.str s1 :: JSVal.str s2 :: xs2))])
            (fun kv2 h2 => objGet_append_of_ne (hdisj kv2 (List.mem_cons_of_mem _ h2))
              (hknotin kv2 h2) _)
            hnodup2 hgood2]
        simp

/-! ## Claim C1: the round trip -/

theorem pieces_shape (m : QueryObject) :
    ∀ p ∈ (m.map (fun kv => pairsOfEntry ['='] (fun _ v => v) kv.1 kv.2)).flatten,
      ∃ a b2, p = encodeURIComponent a ++ ['='] ++ encodeURIComponent b2 := by
  intro p hp
  simp only [List.mem_flatten, List.mem_map] at hp
  obtain ⟨l, ⟨kv, hkv, rfl⟩, hpl⟩ := hp
  obtain ⟨k2, v2⟩ := kv
  cases v2 with
  | und => simp [pairsOfEntry] at hpl
  | arr xs =>
    simp only [pairsOfEntry, List.mem_map] at hpl
    obtain ⟨x, hx, rfl⟩ := hpl
    exact ⟨k2, toJSString x, rfl⟩
  | null =>
    simp only [pairsOfEntry, List.mem_singleton] at hpl
    exact ⟨k2, toJSString JSVal.null, hpl⟩
  | bool b =>
    simp only [pairsOfEntry, List.mem_singleton] at hpl
    exact ⟨k2, toJSString (JSVal.bool b), hpl⟩
  | num n =>
    simp only [pairsOfEntry, List.mem_singleton] at hpl
    exact ⟨k2, toJSString (JSVal.num n), hpl⟩
  | str s =>
    simp only [pairsOfEntry, List.mem_singleton] at hpl
    exact ⟨k2, toJSString (JSVal.str s), hpl⟩

theorem piece_not_special {p : JSStr}
    (h : ∃ a b2, p = encodeURIComponent a ++ ['='] ++ encodeURIComponent b2) :
    '&' ∉ p ∧ '?' ∉ p := by
  obtain ⟨a, b2, rfl⟩ := h
  constructor
  · intro hmem
    rcases List.mem_append.mp hmem with h1 | h2
    · rcases List.mem_append.mp h1 with h3 | h4
      · exact (encodeURIComponent_not_special h3).1 rfl
      · simp at h4
    · exact (encodeURIComponent_not_special h2).1 rfl
  · intro hmem
    rcases List.mem_append.mp hmem with h1 | h2
    · rcases List.mem_append.mp h1 with h3 | h4
      · exact (encodeURIComponent_not_special h3).2.2 rfl
      · simp at h4
    · exact (encodeURIComponent_not_special h2).2.2 rfl

theorem piece_ne_nil {p : JSStr}
    (h : ∃ a b2, p = encodeURIComponent a ++ ['='] ++ encodeURIComponent b2) :
    p ≠ [] := by
  obtain ⟨a, b2, rfl⟩ := h
  intro hcon
  have hlen := congrArg List.length hcon
  rw [List.length_append, List.length_append] at hlen
  simp at hlen

theorem pairsOfEntry_ne_nil {k : JSStr} {v : JSVal} (h : goodValAmendedB v = true) :
    pairsOfEntry ['='] (fun _ v => v) k v ≠ [] := by
  match v with
  | .str s => simp [pairsOfEntry]
  | .und => simp [goodValAmendedB] at h
  | .null => simp [goodValAmendedB] at h
  | .bool b => simp [goodValAmendedB] at h
  | .num n => simp [goodValAmendedB] at h
  | .arr xs =>
    simp only [goodValAmendedB, Bool.and_eq_true, decide_eq_true_eq] at h
    simp only [pairsOfEntry, ne_eq, List.map_eq_nil_iff]
    intro hcon
    rw [hcon] at h
    simp at h

theorem joinWith_ne_nil {sep : JSStr} {p : JSStr} {ps : List JSStr} (hp : p ≠ []) :
    joinWith sep (p :: ps) ≠ [] := by
  cases ps with
  | nil => exact hp
  | cons q rest =>
    rw [joinWith_cons]
    intro hcon
    have hlen := congrArg List.length hcon
    rw [List.length_append, List.length_append] at hlen
    simp only [List.length_nil] at hlen
    have hp0 : p.length ≠ 0 := fun h0 => hp (List.eq_nil_of_length_eq_zero h0)
    omega

/-- Claim C1, amended: for a mapping with pairwise-distinct keys whose
values are scalar strings or sequences of **at least two** strings, with
keys and values containing no separator characters, parsing the stringified
text returns exactly the mapping, order and all.  (Sequences of length zero
or one do not survive the round trip: an empty sequence emits no pair at
all and a one-element sequence reads back as a scalar, which is what the
counterexample exhibits.) -/
theorem parse_stringify_roundtrip :
    ∀ m : QueryObject, goodObjB goodValAmendedB m = true →
      parse (.str (stringify (some m) none none none)) none none none = .ok m := by
  intro m hm
  simp only [goodObjB, Bool.and_eq_true, decide_eq_true_eq, List.all_eq_true] at hm
  obtain ⟨hnodup, hall⟩ := hm
  cases m with
  | nil => rfl
  | cons kv rest =>
    have hstr : stringify (some (kv :: rest)) none none none =
        joinWith ['&'] (((kv :: rest).map
          (fun kv => pairsOfEntry ['='] (fun _ v => v) kv.1 kv.2)).flatten) := by
      have h0 : stringify (some (kv :: rest)) none none none =
          joinWith ['&'] (stringifyLoop ['='] (fun _ v => v) (kv :: rest) []) := rfl
      rw [h0, stringifyLoop_eq_append, List.nil_append]
    have hshape := pieces_shape (kv :: rest)
    have hgkv := hall kv (List.mem_cons_self _ _)
    have hpne : pairsOfEntry ['='] (fun _ v => v) kv.1 kv.2 ≠ [] :=
      pairsOfEntry_ne_nil (Bool.and_eq_true _ _ ▸ hgkv).2
    obtain ⟨p0, l1, hl1⟩ := List.exists_cons_of_ne_nil hpne
    have hpieces : ((kv :: rest).map
        (fun kv => pairsOfEntry ['='] (fun _ v => v) kv.1 kv.2)).flatten =
        p0 :: (l1 ++
          (rest.map (fun kv => pairsOfEntry ['='] (fun _ v => v) kv.1 kv.2)).flatten) := by
      simp [hl1]
    have hp0mem : p0 ∈ ((kv :: rest).map
        (fun kv => pairsOfEntry ['='] (fun _ v => v) kv.1 kv.2)).flatten := by
      rw [hpieces]
      exact List.mem_cons_self _ _
    have hp0ne : p0 ≠ [] := piece_ne_nil (hshape p0 hp0mem)
    have hsne : joinWith ['&'] (((kv :: rest).map
        (fun kv => pairsOfEntry ['='] (fun _ v => v) kv.1 kv.2)).flatten) ≠ [] := by
      rw [hpieces]
      exact joinWith_ne_nil hp0ne
    have hnoq : '?' ∉ joinWith ['&'] (((kv :: rest).map
        (fun kv => pairsOfEntry ['='] (fun _ v => v) kv.1 kv.2)).flatten) := by
      intro hq
      rcases mem_joinWith hq with h1 | ⟨p, hp, hxp⟩
      · simp at h1
      · exact (piece_not_special (hshape p hp)).2 hxp
    have hamp : ∀ p ∈ ((kv :: rest).map
        (fun kv => pairsOfEntry ['='] (fun _ v => v) kv.1 kv.2)).flatten, '&' ∉ p :=
      fun p hp => (piece_not_special (hshape p hp)).1
    rw [hstr, parse, if_neg hsne]
    show parseGroups ['='] (defaultParseFn none)
        (jsSplit (stripUrlPart (joinWith ['&'] _)) ['&']) [] = _
    rw [stripUrlPart_of_not_mem hnoq,
      jsSplit_joinWith '&' _ (by rw [hpieces]; exact List.cons_ne_nil _ _) hamp,
      parseGroups_rebuild (kv :: rest) [] (fun _ _ => rfl) hnodup
        (fun kv2 h2 => (Bool.and_eq_true _ _ ▸ hall kv2 h2).2)]
    rfl

/-- Witness for the amended claim C1 at a concrete mapping with a scalar
key and a two-element sequence key. -/
theorem parse_stringify_roundtrip_witness :
    parse (.str (stringify
        (some [(toL "a", .arr [.str (toL "1"), .str (toL "2")]), (toL "b", .str (toL "3"))])
        none none none)) none none none =
      .ok [(toL "a", .arr [.str (toL "1"), .str (toL "2")]), (toL "b", .str (toL "3"))] :=
  parse_stringify_roundtrip
    [(toL "a", .arr [.str (toL "1"), .str (toL "2")]), (toL "b", .str (toL "3"))]
    (by decide)

/-- Counterexample to claim C1 as stated: the singleton-sequence mapping
`{a: ["1"]}` satisfies every hypothesis of the claim (values are sequences
of strings, no separator characters anywhere), yet
`parse(stringify({a: ["1"]}))` is `{a: "1"}` — the one-element sequence
collapses to a scalar, so the sequence is not preserved. -/
theorem parse_stringify_counterexample :
    goodObjB goodValClaimB [(toL "a", .arr [.str (toL "1")])] = true ∧
    parse (.str (stringify (some [(toL "a", .arr [.str (toL "1")])]) none none none))
        none none none ≠ .ok [(toL "a", .arr [.str (toL "1")])] ∧
    parse (.str (stringify (some [(toL "a", .arr [.str (toL "1")])]) none none none))
        none none none = .ok [(toL "a", .str (toL "1"))] := by
  refine ⟨by decide, ?_, rfl⟩
  intro h
  rw [show parse (.str (stringify (some [(toL "a", .arr [.str (toL "1")])]) none none none))
      none none none = .ok [(toL "a", .str (toL "1"))] from rfl] at h
  simp at h

end QueryString
